import Mathlib

/-!
Verification development for the WhatsApp campaign trigger-and-delivery bot
(repository BOTINMOBILIARIA).

The JavaScript sources are shallowly embedded as executable Lean functions:

* `src/src/utils/keyword-matcher.js`  → `normalizeText`, `containsKeyword`,
  `matchKeywords` (plus the character-level helpers they rely on);
* `src/src/services/ratelimit.service.js` → `checkRateLimit`;
* `src/src/services/message.service.js` → `getCampaignMessages`,
  `sendSequentialMessages` (dispatcher loop);
* `src/unnamed/part_000` (conversation.service.js followed by the WhatsApp
  service) → `createConversation`, `incrementMessagesSent`,
  `completeConversation`, `failConversation`, and the dispatch-outcome
  handling of `handleIncomingMessage` → `handleDispatchOutcome`.

JavaScript built-ins are modelled as follows: `String.prototype.includes`
as a contiguous-substring test on character lists; `toLowerCase` and
Unicode NFD decomposition restricted to the Spanish alphabet the bot
processes (ASCII letters plus á é í ó ú ü ñ and their capitals); `Date`
values as integer millisecond timestamps; database queries as explicit
query-result/ success-flag fields of a store value, so that a thrown
storage error corresponds to a failed flag.
-/

namespace Bot

/-! ### Character-level helpers (models of JS string built-ins) -/

/-- Model of `String.prototype.startsWith` on character lists:
does the first list start with the second? -/
def startsWithChars : List Char → List Char → Bool
  | _, [] => true
  | [], _ :: _ => false
  | c :: cs, d :: ds => c == d && startsWithChars cs ds

/-- Model of `String.prototype.includes` on character lists:
contiguous-substring test (the empty list is contained in every list). -/
def hasSubChars : List Char → List Char → Bool
  | [], sub => sub.isEmpty
  | c :: cs, sub => startsWithChars (c :: cs) sub || hasSubChars cs sub

/-- Model of JS `message.includes(sub)` on strings. -/
def jsIncludes (s sub : String) : Bool :=
  hasSubChars s.data sub.data

/-- Model of `String.prototype.toLowerCase`, restricted to the alphabet the
bot processes: ASCII `A`-`Z` plus the accented capitals Á É Í Ó Ú Ü Ñ
(codepoints C1 C9 CD D3 DA DC D1 mapping to E1 E9 ED F3 FA FC F1). -/
def toLowerChar (c : Char) : Char :=
  if 65 ≤ c.toNat ∧ c.toNat ≤ 90 then Char.ofNat (c.toNat + 32)
  else if c.toNat = 0xC1 then Char.ofNat 0xE1
  else if c.toNat = 0xC9 then Char.ofNat 0xE9
  else if c.toNat = 0xCD then Char.ofNat 0xED
  else if c.toNat = 0xD3 then Char.ofNat 0xF3
  else if c.toNat = 0xDA then Char.ofNat 0xFA
  else if c.toNat = 0xDC then Char.ofNat 0xFC
  else if c.toNat = 0xD1 then Char.ofNat 0xF1
  else c

/-- Model of Unicode canonical decomposition (`normalize('NFD')`), restricted
to the accented letters of the Spanish alphabet: á é í ó ú decompose to the
base vowel followed by U+0301 (combining acute), ü to u + U+0308 (combining
diaeresis), ñ to n + U+0303 (combining tilde); same for the capitals.
Every other character decomposes to itself. -/
def decompChar (c : Char) : List Char :=
  if c.toNat = 0xE1 then ['a', Char.ofNat 0x301]
  else if c.toNat = 0xE9 then ['e', Char.ofNat 0x301]
  else if c.toNat = 0xED then ['i', Char.ofNat 0x301]
  else if c.toNat = 0xF3 then ['o', Char.ofNat 0x301]
  else if c.toNat = 0xFA then ['u', Char.ofNat 0x301]
  else if c.toNat = 0xFC then ['u', Char.ofNat 0x308]
  else if c.toNat = 0xF1 then ['n', Char.ofNat 0x303]
  else if c.toNat = 0xC1 then ['A', Char.ofNat 0x301]
  else if c.toNat = 0xC9 then ['E', Char.ofNat 0x301]
  else if c.toNat = 0xCD then ['I', Char.ofNat 0x301]
  else if c.toNat = 0xD3 then ['O', Char.ofNat 0x301]
  else if c.toNat = 0xDA then ['U', Char.ofNat 0x301]
  else if c.toNat = 0xDC then ['U', Char.ofNat 0x308]
  else if c.toNat = 0xD1 then ['N', Char.ofNat 0x303]
  else [c]

/-- The combining diacritical marks block U+0300 - U+036F stripped by
`replace(/[̀-ͯ]/g, '')`. -/
def isCombiningMark (c : Char) : Bool :=
  0x300 ≤ c.toNat && c.toNat ≤ 0x36F

/-- The punctuation set of the regex in `normalizeText`:
inverted exclamation mark, `!`, inverted question mark, `?`, `.`, `,`, `;`,
`:`, parentheses, square brackets, curly braces, apostrophe, double quote,
acute accent, grave accent, tilde, hyphen. -/
def isPunctChar (c : Char) : Bool :=
  c.toNat = 0xA1 || c.toNat = 0x21 || c.toNat = 0xBF || c.toNat = 0x3F ||
  c.toNat = 0x2E || c.toNat = 0x2C || c.toNat = 0x3B || c.toNat = 0x3A ||
  c.toNat = 0x28 || c.toNat = 0x29 || c.toNat = 0x5B || c.toNat = 0x5D ||
  c.toNat = 0x7B || c.toNat = 0x7D || c.toNat = 0x27 || c.toNat = 0x22 ||
  c.toNat = 0xB4 || c.toNat = 0x60 || c.toNat = 0x7E || c.toNat = 0x2D

/-- Model of the regex class `\s` (space, tab, line feed, vertical tab,
form feed, carriage return). -/
def isJsSpace (c : Char) : Bool :=
  c.toNat = 0x20 || c.toNat = 0x9 || c.toNat = 0xA || c.toNat = 0xB ||
  c.toNat = 0xC || c.toNat = 0xD

/-! ### normalizeText (keyword-matcher.js lines 11-21) -/

/-- First three steps of `normalizeText`: `toLowerCase()`, `normalize('NFD')`,
strip combining marks, then `replace(/[punct]/g, ' ')`. -/
def stripAndClean (l : List Char) : List Char :=
  ((((l.map toLowerChar).flatMap decompChar).filter
    (fun c => !isCombiningMark c)).map
    (fun c => if isPunctChar c then ' ' else c))

/-- Model of `replace(/\s+/g, ' ')`: collapse every maximal run of
whitespace to a single space. The flag says whether the previous character
belonged to a whitespace run. -/
def collapseAux : Bool → List Char → List Char
  | _, [] => []
  | prevSpace, c :: rest =>
    if isJsSpace c then
      if prevSpace then collapseAux true rest
      else ' ' :: collapseAux true rest
    else c :: collapseAux false rest

/-- Drop the trailing run of whitespace characters (the right half of
`trim()`). -/
def dropTrailingSpaces : List Char → List Char
  | [] => []
  | c :: rest =>
    match dropTrailingSpaces rest with
    | [] => if isJsSpace c then [] else [c]
    | r => c :: r

/-- Model of `String.prototype.trim`. -/
def trimChars (l : List Char) : List Char :=
  dropTrailingSpaces (l.dropWhile isJsSpace)

/-- Embedding of `normalizeText` (keyword-matcher.js lines 11-21):
guard for falsy input, lowercase, NFD, strip accent marks, replace the
punctuation set by spaces, collapse whitespace runs, trim. -/
def normalizeText (text : String) : String :=
  if text = "" then ""
  else ⟨trimChars (collapseAux false (stripAndClean text.data))⟩

/-- Analysis predicate: the list does not begin with a whitespace
character. -/
def headOk : List Char → Bool
  | [] => true
  | d :: _ => !isJsSpace d

/-- Analysis predicate for collapsed whitespace: every whitespace
character in the list is a plain space and is not followed by another
whitespace character. `collapseAux` establishes this shape and is the
identity on lists of this shape. -/
def tidy : List Char → Bool
  | [] => true
  | c :: rest => (!isJsSpace c || (c == ' ' && headOk rest)) && tidy rest

/-- Analysis predicate for normalized characters: fixed by lowercasing and
by canonical decomposition, not a combining mark, not punctuation. The
non-space output characters of `stripAndClean` all satisfy it. -/
def cleanChar (c : Char) : Prop :=
  toLowerChar c = c ∧ decompChar c = [c] ∧
  isCombiningMark c = false ∧ isPunctChar c = false

/-! ### containsKeyword (keyword-matcher.js lines 27-43) -/

/-- Model of `String.prototype.split(' ')`: split at every single space,
keeping empty pieces, as JS does. Never returns the empty list. -/
def splitSpaceChars : List Char → List (List Char)
  | [] => [[]]
  | c :: rest =>
    if c = ' ' then [] :: splitSpaceChars rest
    else
      match splitSpaceChars rest with
      | [] => [[c]]
      | w :: ws => (c :: w) :: ws

/-- `split(' ')` on strings. -/
def splitOnSpace (s : String) : List String :=
  (splitSpaceChars s.data).map fun w => ⟨w⟩

/-- Embedding of `containsKeyword` (keyword-matcher.js lines 27-43):
first try contiguous-substring containment of the whole phrase, then fall
back to requiring every nonempty word of the keyword to occur among the
message's words. -/
def containsKeyword (normalizedMessage normalizedKeyword : String) : Bool :=
  if jsIncludes normalizedMessage normalizedKeyword then true
  else
    let keywordWords := (splitOnSpace normalizedKeyword).filter
      (fun w => w.length > 0)
    let messageWords := splitOnSpace normalizedMessage
    keywordWords.all (fun word => messageWords.contains word)

/-! ### matchKeywords (keyword-matcher.js lines 51-143) -/

/-- Match tier of a successful keyword match. -/
inductive MatchType where
  | EXACT
  | KEYWORD
  | SYNONYM
  deriving DecidableEq, Repr

/-- Result value `{matched, type}` of `matchKeywords`. -/
structure MatchResult where
  matched : String
  type : MatchType
  deriving DecidableEq, Repr

/-- The `triggerKeywords` JSON document: each field may be absent
(`none` models a missing or non-array field, which the code skips). -/
structure TriggerKeywords where
  exact_matches : Option (List String) := none
  keywords : Option (List String) := none
  synonyms : Option (List (String × List String)) := none
  excluded_words : Option (List String) := none
  deriving DecidableEq, Repr

/-- PASO 1 of `matchKeywords`: is some excluded word (normalized) a
contiguous substring of the normalized message? -/
def hasExcludedWord (normalizedMessage : String) :
    Option (List String) → Bool
  | none => false
  | some ws => ws.any (fun w => jsIncludes normalizedMessage (normalizeText w))

/-- PASO 2/3 of `matchKeywords`: scan a phrase list in order, returning the
first phrase that `containsKeyword` accepts, tagged with the tier. -/
def scanPhrases (normalizedMessage : String) (ty : MatchType) :
    List String → Option MatchResult
  | [] => none
  | p :: rest =>
    if containsKeyword normalizedMessage (normalizeText p) then
      some ⟨p, ty⟩
    else scanPhrases normalizedMessage ty rest

/-- PASO 4 of `matchKeywords`: scan the synonym map in order. The main word
and each synonym are tested with plain substring containment; a hit always
reports the main word. -/
def scanSynonyms (normalizedMessage : String) :
    List (String × List String) → Option MatchResult
  | [] => none
  | (mainWord, synonymList) :: rest =>
    if jsIncludes normalizedMessage (normalizeText mainWord) then
      some ⟨mainWord, MatchType.SYNONYM⟩
    else if synonymList.any
        (fun s => jsIncludes normalizedMessage (normalizeText s)) then
      some ⟨mainWord, MatchType.SYNONYM⟩
    else scanSynonyms normalizedMessage rest

/-- Embedding of `matchKeywords` (keyword-matcher.js lines 51-143):
falsy-message guard, excluded-words veto, then the exact / keyword /
synonym tiers in that order. -/
def matchKeywords (messageText : String)
    (triggerKeywords : TriggerKeywords) : Option MatchResult :=
  if messageText = "" then none
  else
    let normalizedMessage := normalizeText messageText
    if hasExcludedWord normalizedMessage triggerKeywords.excluded_words then
      none
    else
      match scanPhrases normalizedMessage MatchType.EXACT
          (triggerKeywords.exact_matches.getD []) with
      | some r => some r
      | none =>
        match scanPhrases normalizedMessage MatchType.KEYWORD
            (triggerKeywords.keywords.getD []) with
        | some r => some r
        | none =>
          scanSynonyms normalizedMessage (triggerKeywords.synonyms.getD [])

/-! ### checkRateLimit (ratelimit.service.js lines 10-119)

Timestamps are integer milliseconds. The three database accesses of
`checkRateLimit` are modelled by a store value carrying, for each query,
the data it would return and a success flag; a `false` flag stands for the
query throwing, which the surrounding `try/catch` turns into the fail-open
`ERROR_CHECK` result. The function returns the result object together with
the store after the call (the auto-unblock path issues an `UPDATE`). -/

/-- One row of `user_rate_limit` as read by `checkRateLimit`. -/
structure RateLimitRow where
  is_blocked : Bool
  blocked_until : Option Int
  trigger_count_hour : Int
  trigger_count_day : Int
  last_trigger_at : Option Int
  deriving DecidableEq, Repr

/-- The persistent store as seen by one `checkRateLimit` call for one
sender: `permBlocked` says whether the sender is in `blocked_numbers`,
`record` is their `user_rate_limit` row; `q1ok`, `q2ok`, `q3ok` say whether
the `blocked_numbers` SELECT, the `user_rate_limit` SELECT and the
auto-unblock UPDATE succeed. -/
structure RLStore where
  permBlocked : Bool
  record : Option RateLimitRow
  q1ok : Bool := true
  q2ok : Bool := true
  q3ok : Bool := true
  deriving DecidableEq, Repr

/-- The `{allowed, reason}` object returned by `checkRateLimit`. -/
structure RLResult where
  allowed : Bool
  reason : String
  deriving DecidableEq, Repr

/-- The configured thresholds `config.rateLimits.hour/day`. -/
structure RLConfig where
  hour : Int
  day : Int
  deriving DecidableEq, Repr

/-- Embedding of `checkRateLimit` (ratelimit.service.js lines 10-119).
`now` is the current time in ms; `now > blockedUntil` becomes `bu < now`,
`lastTrigger > hourAgo` becomes `now - 3600000 < lt`, and the counter
comparisons keep their `>=` direction. A failed query short-circuits to
the catch handler, which returns `{allowed: true, reason: 'ERROR_CHECK'}`
and leaves the store unchanged. -/
def checkRateLimit (cfg : RLConfig) (db : RLStore) (now : Int) :
    RLResult × RLStore :=
  if db.q1ok = false then (⟨true, "ERROR_CHECK"⟩, db)
  else if db.permBlocked then (⟨false, "BLOCKED_PERMANENT"⟩, db)
  else if db.q2ok = false then (⟨true, "ERROR_CHECK"⟩, db)
  else
    match db.record with
    | none => (⟨true, "NEW_USER"⟩, db)
    | some rld =>
      if rld.is_blocked then
        match rld.blocked_until with
        | some bu =>
          if bu < now then
            if db.q3ok = false then (⟨true, "ERROR_CHECK"⟩, db)
            else
              let cleared := { rld with is_blocked := false,
                                        blocked_until := none }
              (⟨true, "UNBLOCKED"⟩, { db with record := some cleared })
          else (⟨false, "BLOCKED_TEMPORARY"⟩, db)
        | none => (⟨false, "BLOCKED_TEMPORARY"⟩, db)
      else
        match rld.last_trigger_at with
        | some lt =>
          if now - 3600000 < lt ∧ cfg.hour ≤ rld.trigger_count_hour then
            (⟨false, "RATE_LIMIT_HOUR"⟩, db)
          else if now - 86400000 < lt ∧ cfg.day ≤ rld.trigger_count_day then
            (⟨false, "RATE_LIMIT_DAY"⟩, db)
          else (⟨true, "OK"⟩, db)
        | none => (⟨true, "OK"⟩, db)

/-! ### getCampaignMessages and sendSequentialMessages
(message.service.js lines 13-42 and 187-276) -/

/-- One row of `messages` joined with `message_types`, which is also the
shape of one dispatch plan item. -/
structure PlanItem where
  id : Nat
  campaign_id : Nat
  type_code : String
  content : Option String := none
  sort_order : Int
  delay_seconds : Nat := 0
  is_active : Bool := true
  deleted_at : Option Nat := none
  deriving DecidableEq, Repr

/-- Outcome of one `client.sendMessage`-backed per-item attempt: either the
WhatsApp message id, or the thrown error's message. -/
inductive SendOutcome where
  | ok (whatsappMessageId : String)
  | fail (errorMessage : String)
  deriving DecidableEq, Repr

/-- The message types handled by the dispatcher's `switch`; every other
`type_code` hits the `default` branch and is skipped. -/
def supportedType (t : String) : Bool :=
  t == "TEXT" || t == "IMAGE" || t == "AUDIO" || t == "DOCUMENT" ||
  t == "GALLERY"

/-- The dispatcher's test for a critical connection error
(message.service.js line 253): the error message contains
`Connection closed` or `Session closed`. -/
def isCriticalError (e : String) : Bool :=
  jsIncludes e "Connection closed" || jsIncludes e "Session closed"

/-- The `{success, total, sent, failed}` object returned by
`sendSequentialMessages` when it finishes without a critical abort. -/
structure DispatchResult where
  success : Bool
  total : Nat
  sent : Nat
  failed : Nat
  deriving DecidableEq, Repr

/-- Data carried by a critical abort: the thrown error message plus the
success/fail counters already accumulated (the counters mirror the
bookkeeping writes already performed when the throw happens). -/
structure AbortInfo where
  errorMessage : String
  sentSoFar : Nat
  failedSoFar : Nat
  deriving DecidableEq, Repr

/-- Loop of `sendSequentialMessages` (message.service.js lines 194-261).
`env i` gives the outcome of the send attempt for the plan item at
position `i`. Returns the list of `sort_order` values of the items whose
send was attempted, in attempt order, together with either the final
`(successCount, failCount)` or the abort information of a critical error.
Unsupported types fall to the `default` branch: no attempt, no counter.
A failed attempt increments `failCount` and then aborts if the error is
critical, otherwise the loop continues. -/
def dispatchAux (env : Nat → SendOutcome) :
    Nat → Nat → Nat → List PlanItem →
    List Int × Except AbortInfo (Nat × Nat)
  | _, successCount, failCount, [] => ([], .ok (successCount, failCount))
  | i, successCount, failCount, msg :: rest =>
    if supportedType msg.type_code then
      match env i with
      | .ok _ =>
        let next := dispatchAux env (i + 1) (successCount + 1) failCount rest
        (msg.sort_order :: next.1, next.2)
      | .fail e =>
        if isCriticalError e then
          ([msg.sort_order], .error ⟨e, successCount, failCount + 1⟩)
        else
          let next := dispatchAux env (i + 1) successCount (failCount + 1) rest
          (msg.sort_order :: next.1, next.2)
    else
      dispatchAux env (i + 1) successCount failCount rest

/-- Embedding of `sendSequentialMessages` (message.service.js lines
187-276): runs the loop over the plan in list order and either returns
`{success: true, total, sent, failed}` or propagates the critical error. -/
def sendSequentialMessages (env : Nat → SendOutcome)
    (messages : List PlanItem) : Except AbortInfo DispatchResult :=
  match (dispatchAux env 0 0 0 messages).2 with
  | .error a => .error a
  | .ok (s, f) => .ok ⟨true, messages.length, s, f⟩

/-- The order in which the dispatcher attempts sends: `sort_order` values
of the attempted items, in attempt order. -/
def sendTrace (env : Nat → SendOutcome) (messages : List PlanItem) :
    List Int :=
  (dispatchAux env 0 0 0 messages).1

/-- Embedding of `getCampaignMessages` (message.service.js lines 13-42):
the SQL query filters the `messages` rows of the campaign that are active
and not soft-deleted and returns them ordered by `sort_order` ascending. -/
def getCampaignMessages (rows : List PlanItem) (campaignId : Nat) :
    List PlanItem :=
  List.insertionSort (fun a b => a.sort_order ≤ b.sort_order)
    (rows.filter (fun m =>
      m.campaign_id == campaignId && m.is_active && m.deleted_at == none))

/-! ### Conversation tracker (conversation.service.js, the first file in
src/unnamed/part_000) and the orchestrator outcome policy
(`handleIncomingMessage`, second file in src/unnamed/part_000) -/

/-- Conversation lifecycle states (the `validStatuses` list of
conversation.service.js, part_000 line 64). -/
inductive ConvStatus where
  | INITIATED
  | IN_PROGRESS
  | COMPLETED
  | FAILED
  | CANCELLED
  deriving DecidableEq, Repr

/-- The status and counter fields of a `bot_conversations` row that the
tracker functions write. -/
structure Conversation where
  status : ConvStatus
  messages_sent : Nat
  deriving DecidableEq, Repr

/-- Embedding of `createConversation` (conversation.service.js, part_000
lines 9-30): the row is inserted with status INITIATED and the
`messages_sent` counter at its zero default. -/
def createConversation : Conversation :=
  ⟨ConvStatus.INITIATED, 0⟩

/-- Embedding of `incrementMessagesSent` (conversation.service.js,
part_000 lines 92-110): bumps `messages_sent` and sets the status to
IN_PROGRESS on every call. -/
def incrementMessagesSent (conv : Conversation) : Conversation :=
  { conv with messages_sent := conv.messages_sent + 1,
              status := ConvStatus.IN_PROGRESS }

/-- Embedding of `completeConversation` (conversation.service.js, part_000
lines 188-205): sets the status to COMPLETED. -/
def completeConversation (conv : Conversation) : Conversation :=
  { conv with status := ConvStatus.COMPLETED }

/-- Embedding of `failConversation` (conversation.service.js, part_000
lines 213-235): sets the status to FAILED (the failure reason written into
`session_metadata` is not modelled). -/
def failConversation (conv : Conversation) : Conversation :=
  { conv with status := ConvStatus.FAILED }

/-- The conversation row while a dispatch is running: created by
`createConversation` (part_000 line 543 of the orchestrator), then
`incrementMessagesSent` applied once per successful send
(message.service.js line 240). -/
def convAfterSends : Nat → Conversation
  | 0 => createConversation
  | n + 1 => incrementMessagesSent (convAfterSends n)

/-- Embedding of the dispatch-outcome handling of `handleIncomingMessage`
(part_000 lines 566-588): on a normal dispatch result, all items sent
means `completeConversation`, all items failed means `failConversation`,
any other mix means `completeConversation`; a thrown critical error is
caught by the surrounding `catch` (lines 585-588), which only logs, so the
row keeps the state already written by the per-send
`incrementMessagesSent` calls. -/
def handleDispatchOutcome (env : Nat → SendOutcome)
    (messages : List PlanItem) : Conversation :=
  match sendSequentialMessages env messages with
  | .ok result =>
    if result.sent = messages.length then
      completeConversation (convAfterSends result.sent)
    else if result.failed = messages.length then
      failConversation (convAfterSends result.sent)
    else completeConversation (convAfterSends result.sent)
  | .error a => convAfterSends a.sentSoFar

/-! ### Ordering instances and concrete fixtures used by witnesses and
counterexamples -/

instance : IsTotal PlanItem (fun a b => a.sort_order ≤ b.sort_order) :=
  ⟨fun a b => Int.le_total a.sort_order b.sort_order⟩

instance : IsTrans PlanItem (fun a b => a.sort_order ≤ b.sort_order) :=
  ⟨fun _ _ _ hab hbc => Int.le_trans hab hbc⟩

/-- Every send succeeds. -/
def envAllOk : Nat → SendOutcome := fun _ => SendOutcome.ok "wid"

/-- Every send fails with a transport-fatal session error. -/
def envFatal : Nat → SendOutcome := fun _ => SendOutcome.fail "Session closed"

/-- The third send attempt fails with an ordinary (non-fatal) error. -/
def envThirdFails : Nat → SendOutcome := fun i =>
  if i = 2 then SendOutcome.fail "HTTP 404" else SendOutcome.ok "wid"

/-- The second send attempt fails with an ordinary (non-fatal) error. -/
def envSecondFails : Nat → SendOutcome := fun i =>
  if i = 1 then SendOutcome.fail "HTTP 404" else SendOutcome.ok "wid"

/-- Two text items listed in descending `sort_order`. -/
def planReversed : List PlanItem :=
  [{ id := 1, campaign_id := 1, type_code := "TEXT", sort_order := 2 },
   { id := 2, campaign_id := 1, type_code := "TEXT", sort_order := 1 }]

/-- Two text items in ascending `sort_order`. -/
def planTwoTexts : List PlanItem :=
  [{ id := 1, campaign_id := 1, type_code := "TEXT", sort_order := 1 },
   { id := 2, campaign_id := 1, type_code := "TEXT", sort_order := 2 }]

/-- A three item plan whose middle item has an unsupported type. -/
def planWithVideo : List PlanItem :=
  [{ id := 1, campaign_id := 1, type_code := "TEXT", sort_order := 1 },
   { id := 2, campaign_id := 1, type_code := "VIDEO", sort_order := 2 },
   { id := 3, campaign_id := 1, type_code := "IMAGE", sort_order := 3 }]

/-- A rule set whose excluded word also occurs in every other tier. -/
def tkPrecio : TriggerKeywords :=
  { exact_matches := some ["precio del lote"],
    keywords := some ["lote"],
    synonyms := some [("precio", ["costo"])],
    excluded_words := some ["precio"] }

/-- A store with a temporarily blocked sender whose block expired at t=5. -/
def dbExpiredBlock : RLStore :=
  { permBlocked := false, record := some ⟨true, some 5, 0, 0, none⟩ }

/-- A store whose `user_rate_limit` SELECT fails. -/
def dbQ2Fails : RLStore :=
  { permBlocked := false, record := some ⟨false, none, 0, 0, none⟩,
    q2ok := false }

/-- The store after the auto-unblock UPDATE: same record with
`is_blocked = FALSE` and `blocked_until = NULL`. -/
def clearBlock (db : RLStore) (rld : RateLimitRow) : RLStore :=
  { db with record := some { rld with is_blocked := false,
                                      blocked_until := none } }

/-! ## Helper lemmas -/

/-- The empty list is a contiguous sublist of every list. -/
theorem hasSubChars_nil (l : List Char) : hasSubChars l [] = true := by
  cases l <;> simp [hasSubChars, startsWithChars, List.isEmpty]

/-- JS `includes` with the empty search string is always true. -/
theorem jsIncludes_empty (s : String) : jsIncludes s "" = true :=
  hasSubChars_nil s.data

/-- `containsKeyword` accepts the empty phrase for every message. -/
theorem containsKeyword_empty (m : String) : containsKeyword m "" = true := by
  unfold containsKeyword
  rw [if_pos (jsIncludes_empty m)]

/-- A triggered excluded-words veto makes `matchKeywords` return none. -/
theorem matchKeywords_none_of_veto (msg : String) (tk : TriggerKeywords)
    (h : hasExcludedWord (normalizeText msg) tk.excluded_words = true) :
    matchKeywords msg tk = none := by
  unfold matchKeywords
  by_cases hm : msg = ""
  · rw [if_pos hm]
  · rw [if_neg hm, if_pos h]

/-- Membership of a hit in an excluded-words list makes the veto fire. -/
theorem hasExcludedWord_of_mem (nm : String) (ws : List String) (w : String)
    (hmem : w ∈ ws) (hsub : jsIncludes nm (normalizeText w) = true) :
    hasExcludedWord nm (some ws) = true := by
  unfold hasExcludedWord
  exact List.any_eq_true.mpr ⟨w, hmem, hsub⟩

/-- If some phrase of the list is accepted, the phrase scan returns a hit. -/
theorem scanPhrases_isSome_of_mem (nm : String) (ty : MatchType)
    (ps : List String) (e : String) (hmem : e ∈ ps)
    (hc : containsKeyword nm (normalizeText e) = true) :
    (scanPhrases nm ty ps).isSome = true := by
  induction ps with
  | nil => cases hmem
  | cons p rest ih =>
    unfold scanPhrases
    by_cases hp : containsKeyword nm (normalizeText p) = true
    · rw [if_pos hp]; rfl
    · rw [if_neg hp]
      rcases List.mem_cons.mp hmem with h | h
      · exact absurd (h ▸ hc) hp
      · exact ih h

/-! ## Claim theorems -/

/-- C2: for every message and every rule set, if the normalization of an
`excluded_words` entry is a contiguous substring of the normalized message,
then `matchKeywords` returns none, whatever the other fields hold (the veto
is evaluated before the exact, keyword and synonym tiers). -/
theorem excluded_words_veto (msg : String) (tk : TriggerKeywords)
    (ws : List String) (w : String) (hws : tk.excluded_words = some ws)
    (hmem : w ∈ ws)
    (hsub : jsIncludes (normalizeText msg) (normalizeText w) = true) :
    matchKeywords msg tk = none :=
  matchKeywords_none_of_veto msg tk
    (hws ▸ hasExcludedWord_of_mem _ ws w hmem hsub)

/-- Witness for C2: `tkPrecio` has an exact match, a keyword and a synonym
that all occur in the message, yet the excluded word `precio` vetoes. -/
theorem excluded_words_veto_witness :
    matchKeywords "precio del lote" tkPrecio = none :=
  excluded_words_veto "precio del lote" tkPrecio
    ["precio"] "precio" rfl (by decide) (by decide)

/-- C9: `containsKeyword` accepts the empty phrase for every message; an
excluded-words entry normalizing to the empty string vetoes every message;
an `exact_matches` or `keywords` entry normalizing to the empty string is
accepted against every message, and on a nonempty message that is not
vetoed it forces `matchKeywords` to return a match. -/
theorem empty_normalization_matches :
    (∀ m : String, containsKeyword m "" = true) ∧
    (∀ (msg : String) (tk : TriggerKeywords) (ws : List String)
      (w : String), tk.excluded_words = some ws → w ∈ ws →
      normalizeText w = "" → matchKeywords msg tk = none) ∧
    (∀ msg e : String, normalizeText e = "" →
      containsKeyword (normalizeText msg) (normalizeText e) = true) ∧
    (∀ (msg : String) (tk : TriggerKeywords) (e : String), msg ≠ "" →
      hasExcludedWord (normalizeText msg) tk.excluded_words = false →
      (e ∈ tk.exact_matches.getD [] ∨ e ∈ tk.keywords.getD []) →
      normalizeText e = "" → (matchKeywords msg tk).isSome = true) := by
  refine ⟨containsKeyword_empty, ?_, ?_, ?_⟩
  · intro msg tk ws w hws hmem hnorm
    refine matchKeywords_none_of_veto msg tk (hws ▸ ?_)
    exact hasExcludedWord_of_mem _ ws w hmem
      (by rw [hnorm]; exact jsIncludes_empty _)
  · intro msg e hnorm
    rw [hnorm]; exact containsKeyword_empty _
  · intro msg tk e hmsg hveto hmem hnorm
    have hc : ∀ nm, containsKeyword nm (normalizeText e) = true := by
      intro nm; rw [hnorm]; exact containsKeyword_empty nm
    unfold matchKeywords
    rw [if_neg hmsg, if_neg (by rw [hveto]; exact Bool.false_ne_true)]
    rcases hmem with hmem | hmem
    · have hs := scanPhrases_isSome_of_mem (normalizeText msg)
        MatchType.EXACT (tk.exact_matches.getD []) e hmem (hc _)
      cases hx : scanPhrases (normalizeText msg) MatchType.EXACT
          (tk.exact_matches.getD []) with
      | none => rw [hx] at hs; cases hs
      | some r => rfl
    · cases hx : scanPhrases (normalizeText msg) MatchType.EXACT
          (tk.exact_matches.getD []) with
      | some r => rfl
      | none =>
        have hs := scanPhrases_isSome_of_mem (normalizeText msg)
          MatchType.KEYWORD (tk.keywords.getD []) e hmem (hc _)
        cases hk : scanPhrases (normalizeText msg) MatchType.KEYWORD
            (tk.keywords.getD []) with
        | none => rw [hk] at hs; cases hs
        | some r => rfl

/-- Witness for C9: a punctuation-only keyword entry normalizes to the
empty string and matches an unrelated nonempty message. -/
theorem empty_normalization_matches_witness :
    (matchKeywords "buenos dias"
      { keywords := some ["!!"] }).isSome = true :=
  empty_normalization_matches.2.2.2 "buenos dias"
    { keywords := some ["!!"] } "!!" (by decide) (by decide)
    (Or.inr (by decide)) (by decide)

/-- Counterexample for C8: after normalization the keyword phrase IS a
contiguous substring of the message (`includes` succeeds), contradicting
the claim that the match can only be found via the word-containment
fallback. -/
theorem yanachaga_contiguous_counterexample :
    jsIncludes
      (normalizeText "Hola! info del Yanachaga Ecovillage, gracias")
      (normalizeText "yanachaga ecovillage") = true := by decide

/-- C8 amended: the message matches the rule set with type KEYWORD and
matched text `yanachaga ecovillage`, and the hit comes from the
contiguous-substring branch of `containsKeyword`, because normalization
turns the punctuation into spaces and makes the phrase contiguous. -/
theorem yanachaga_keyword_match :
    matchKeywords "Hola! info del Yanachaga Ecovillage, gracias"
      { keywords := some ["yanachaga ecovillage"] } =
      some ⟨"yanachaga ecovillage", MatchType.KEYWORD⟩ ∧
    jsIncludes
      (normalizeText "Hola! info del Yanachaga Ecovillage, gracias")
      (normalizeText "yanachaga ecovillage") = true := by
  exact ⟨by decide, by decide⟩

/-- C5: for a sender that is not permanently blocked and whose record has
`is_blocked = true`: when `blocked_until` is set and strictly in the past
the check allows with reason UNBLOCKED and clears the block on the stored
record; otherwise (`blocked_until` in the future, equal to now, or null)
it denies with reason BLOCKED_TEMPORARY and leaves the store unchanged. -/
theorem blocked_sender_check (cfg : RLConfig) (db : RLStore) (now : Int)
    (rld : RateLimitRow) (h1 : db.q1ok = true) (hp : db.permBlocked = false)
    (h2 : db.q2ok = true) (h3 : db.q3ok = true)
    (hrec : db.record = some rld) (hb : rld.is_blocked = true) :
    ((∃ bu, rld.blocked_until = some bu ∧ bu < now) →
      checkRateLimit cfg db now = (⟨true, "UNBLOCKED"⟩, clearBlock db rld)) ∧
    ((∀ bu, rld.blocked_until = some bu → now ≤ bu) →
      checkRateLimit cfg db now = (⟨false, "BLOCKED_TEMPORARY"⟩, db)) := by
  constructor
  · rintro ⟨bu, hbu, hlt⟩
    simp [checkRateLimit, clearBlock, h1, hp, h2, h3, hrec, hb, hbu, hlt]
  · intro hfut
    cases hbu : rld.blocked_until with
    | none => simp [checkRateLimit, h1, hp, h2, hrec, hb, hbu]
    | some bu =>
      have hge : ¬ bu < now := not_lt.mpr (hfut bu hbu)
      simp [checkRateLimit, h1, hp, h2, hrec, hb, hbu, hge]

/-- Witness for C5: sender blocked until t=5, checked at t=10, is allowed
with reason UNBLOCKED and the block is cleared. -/
theorem blocked_sender_check_witness :
    checkRateLimit ⟨3, 8⟩ dbExpiredBlock 10 =
      (⟨true, "UNBLOCKED"⟩,
       clearBlock dbExpiredBlock ⟨true, some 5, 0, 0, none⟩) :=
  (blocked_sender_check ⟨3, 8⟩ dbExpiredBlock 10 ⟨true, some 5, 0, 0, none⟩
    rfl rfl rfl rfl rfl rfl).1 ⟨5, rfl, by decide⟩

/-- C6: whenever one of the storage accesses that `checkRateLimit` actually
performs fails (the permanent-block SELECT, the rate-limit SELECT reached
past it, or the auto-unblock UPDATE reached on the expired-block path), the
check does not propagate the error: it returns
`{allowed: true, reason: 'ERROR_CHECK'}` and the store is untouched. -/
theorem rate_limit_fails_open (cfg : RLConfig) (db : RLStore) (now : Int)
    (h : db.q1ok = false ∨
      (db.permBlocked = false ∧ db.q2ok = false) ∨
      (db.permBlocked = false ∧ db.q2ok = true ∧
        ∃ rld bu, db.record = some rld ∧ rld.is_blocked = true ∧
          rld.blocked_until = some bu ∧ bu < now ∧ db.q3ok = false)) :
    checkRateLimit cfg db now = (⟨true, "ERROR_CHECK"⟩, db) := by
  rcases h with h1 | ⟨hp, h2⟩ | ⟨hp, h2, rld, bu, hrec, hb, hbu, hlt, h3⟩
  · simp [checkRateLimit, h1]
  · by_cases h1 : db.q1ok = false
    · simp [checkRateLimit, h1]
    · simp [checkRateLimit, h1, hp, h2]
  · by_cases h1 : db.q1ok = false
    · simp [checkRateLimit, h1]
    · simp [checkRateLimit, h1, hp, h2, h3, hrec, hb, hbu, hlt]

/-- Witness for C6: the rate-limit SELECT fails, so the sender is admitted
with reason ERROR_CHECK. -/
theorem rate_limit_fails_open_witness :
    checkRateLimit ⟨3, 8⟩ dbQ2Fails 10 = (⟨true, "ERROR_CHECK"⟩, dbQ2Fails) :=
  rate_limit_fails_open ⟨3, 8⟩ dbQ2Fails 10 (Or.inr (Or.inl ⟨rfl, rfl⟩))

/-- Counter bookkeeping of the dispatch loop: when it finishes without a
critical abort, the counters only grow, together they grow by at most the
number of plan items, and by strictly less whenever some item has an
unsupported type (the `default` branch skips it without counting). -/
theorem dispatchAux_ok_counts (env : Nat → SendOutcome) :
    ∀ (msgs : List PlanItem) (i s f s' f' : Nat) (tr : List Int),
    dispatchAux env i s f msgs = (tr, .ok (s', f')) →
    s ≤ s' ∧ f ≤ f' ∧ s' + f' ≤ s + f + msgs.length ∧
    ((∃ m ∈ msgs, supportedType m.type_code = false) →
      s' + f' < s + f + msgs.length) := by
  intro msgs
  induction msgs with
  | nil =>
    intro i s f s' f' tr h
    simp only [dispatchAux, Prod.mk.injEq, Except.ok.injEq] at h
    obtain ⟨-, hs, hf⟩ := h
    refine ⟨le_of_eq hs, le_of_eq hf, by omega, ?_⟩
    rintro ⟨m, hm, -⟩
    cases hm
  | cons m rest ih =>
    intro i s f s' f' tr h
    simp only [dispatchAux] at h
    by_cases hsup : supportedType m.type_code
    · rw [if_pos hsup] at h
      cases henv : env i with
      | ok wid =>
        simp only [henv] at h
        obtain ⟨p, hd⟩ : ∃ p, dispatchAux env (i + 1) (s + 1) f rest = p :=
          ⟨_, rfl⟩
        obtain ⟨tr', r'⟩ := p
        simp only [hd, Prod.mk.injEq] at h
        obtain ⟨htr, hr⟩ := h
        obtain ⟨ih1, ih2, ih3, ih4⟩ :=
          ih (i + 1) (s + 1) f s' f' tr' (by rw [hd, hr])
        refine ⟨by omega, by omega, by simp [List.length_cons]; omega, ?_⟩
        rintro ⟨mm, hmm, hmm2⟩
        rcases List.mem_cons.mp hmm with hh | hh
        · rw [hh] at hmm2; rw [hmm2] at hsup; cases hsup
        · have := ih4 ⟨mm, hh, hmm2⟩
          simp [List.length_cons]; omega
      | fail e =>
        simp only [henv] at h
        by_cases hcrit : isCriticalError e = true
        · rw [if_pos hcrit] at h
          simp only [Prod.mk.injEq] at h
          cases h.2
        · rw [if_neg hcrit] at h
          obtain ⟨p, hd⟩ : ∃ p, dispatchAux env (i + 1) s (f + 1) rest = p :=
            ⟨_, rfl⟩
          obtain ⟨tr', r'⟩ := p
          simp only [hd, Prod.mk.injEq] at h
          obtain ⟨htr, hr⟩ := h
          obtain ⟨ih1, ih2, ih3, ih4⟩ :=
            ih (i + 1) s (f + 1) s' f' tr' (by rw [hd, hr])
          refine ⟨by omega, by omega, by simp [List.length_cons]; omega, ?_⟩
          rintro ⟨mm, hmm, hmm2⟩
          rcases List.mem_cons.mp hmm with hh | hh
          · rw [hh] at hmm2; rw [hmm2] at hsup; cases hsup
          · have := ih4 ⟨mm, hh, hmm2⟩
            simp [List.length_cons]; omega
    · rw [if_neg hsup] at h
      obtain ⟨ih1, ih2, ih3, ih4⟩ := ih (i + 1) s f s' f' tr h
      exact ⟨ih1, ih2, by simp [List.length_cons]; omega,
        fun _ => by simp [List.length_cons]; omega⟩

/-- On a normal finish, `sendSequentialMessages` reports
`total = messages.length` and `sent + failed` at most (and, with an
unsupported item, strictly below) the number of plan items. -/
theorem sendSeq_ok_counts (env : Nat → SendOutcome)
    (messages : List PlanItem) (r : DispatchResult)
    (h : sendSequentialMessages env messages = .ok r) :
    r.total = messages.length ∧ r.sent + r.failed ≤ messages.length ∧
    ((∃ m ∈ messages, supportedType m.type_code = false) →
      r.sent + r.failed < messages.length) := by
  unfold sendSequentialMessages at h
  obtain ⟨p, hd⟩ : ∃ p, dispatchAux env 0 0 0 messages = p := ⟨_, rfl⟩
  obtain ⟨tr, r'⟩ := p
  rw [hd] at h
  cases r' with
  | error a => cases h
  | ok sf =>
    obtain ⟨s, f⟩ := sf
    obtain ⟨-, -, h3, h4⟩ :=
      dispatchAux_ok_counts env messages 0 0 0 s f tr hd
    cases h
    exact ⟨rfl, by simpa using h3, fun hx => by simpa using h4 hx⟩

/-- The only error a dispatch can propagate is a critical connection
error: everything else is caught in the per-item handler. -/
theorem dispatchAux_error_critical (env : Nat → SendOutcome) :
    ∀ (msgs : List PlanItem) (i s f : Nat) (tr : List Int) (a : AbortInfo),
    dispatchAux env i s f msgs = (tr, .error a) →
    isCriticalError a.errorMessage = true := by
  intro msgs
  induction msgs with
  | nil =>
    intro i s f tr a h
    simp only [dispatchAux, Prod.mk.injEq] at h
    cases h.2
  | cons m rest ih =>
    intro i s f tr a h
    simp only [dispatchAux] at h
    by_cases hsup : supportedType m.type_code
    · rw [if_pos hsup] at h
      cases henv : env i with
      | ok wid =>
        simp only [henv] at h
        obtain ⟨p, hd⟩ : ∃ p, dispatchAux env (i + 1) (s + 1) f rest = p :=
          ⟨_, rfl⟩
        obtain ⟨tr', r'⟩ := p
        simp only [hd, Prod.mk.injEq] at h
        exact ih (i + 1) (s + 1) f tr' a (by rw [hd, h.2])
      | fail e =>
        simp only [henv] at h
        by_cases hcrit : isCriticalError e = true
        · rw [if_pos hcrit] at h
          simp only [Prod.mk.injEq, Except.error.injEq] at h
          rw [← h.2]
          exact hcrit
        · rw [if_neg hcrit] at h
          obtain ⟨p, hd⟩ : ∃ p, dispatchAux env (i + 1) s (f + 1) rest = p :=
            ⟨_, rfl⟩
          obtain ⟨tr', r'⟩ := p
          simp only [hd, Prod.mk.injEq] at h
          exact ih (i + 1) s (f + 1) tr' a (by rw [hd, h.2])
    · rw [if_neg hsup] at h
      exact ih (i + 1) s f tr a h

/-- The attempt trace follows the plan's list order: it is a sublist of
the plan's `sort_order` column. -/
theorem dispatchAux_trace_sublist (env : Nat → SendOutcome) :
    ∀ (msgs : List PlanItem) (i s f : Nat),
    ((dispatchAux env i s f msgs).1).Sublist
      (msgs.map (fun m => m.sort_order)) := by
  intro msgs
  induction msgs with
  | nil => intro i s f; simp [dispatchAux]
  | cons m rest ih =>
    intro i s f
    by_cases hsup : supportedType m.type_code
    · cases henv : env i with
      | ok wid =>
        simp only [dispatchAux, List.map_cons, hsup, if_true, henv]
        exact List.Sublist.cons₂ _ (ih (i + 1) (s + 1) f)
      | fail e =>
        by_cases hcrit : isCriticalError e = true
        · simp only [dispatchAux, List.map_cons, hsup, if_true, henv,
            if_pos hcrit]
          exact List.Sublist.cons₂ _ (List.nil_sublist _)
        · simp only [dispatchAux, List.map_cons, hsup, if_true, henv,
            if_neg hcrit]
          exact List.Sublist.cons₂ _ (ih (i + 1) s (f + 1))
    · simp only [dispatchAux, List.map_cons, hsup, Bool.false_eq_true,
        if_false]
      exact List.Sublist.cons _ (ih (i + 1) s f)

/-- C10: a `DispatchResult` returned by the dispatcher always satisfies
`sent + failed ≤ total` with `total` the plan length, and the inequality is
strict whenever the plan contains an item whose type is outside
TEXT/IMAGE/AUDIO/DOCUMENT/GALLERY (such an item is skipped and counted
neither as sent nor as failed). -/
theorem dispatch_result_counts (env : Nat → SendOutcome)
    (messages : List PlanItem) (r : DispatchResult)
    (h : sendSequentialMessages env messages = .ok r) :
    r.total = messages.length ∧ r.sent + r.failed ≤ r.total ∧
    ((∃ m ∈ messages, supportedType m.type_code = false) →
      r.sent + r.failed < r.total) := by
  obtain ⟨h1, h2, h3⟩ := sendSeq_ok_counts env messages r h
  exact ⟨h1, h1 ▸ h2, fun hx => h1 ▸ h3 hx⟩

/-- Witness for C10: a three-item plan with an unsupported VIDEO item in
the middle yields `{total: 3, sent: 1, failed: 1}`, strictly fewer counted
items than the plan length. -/
theorem dispatch_result_counts_witness :
    sendSequentialMessages envThirdFails planWithVideo =
      .ok ⟨true, 3, 1, 1⟩ ∧ (1 + 1 : Nat) < 3 := by
  refine ⟨by rfl, ?_⟩
  exact (dispatch_result_counts envThirdFails planWithVideo
    ⟨true, 3, 1, 1⟩ (by rfl)).2.2
    ⟨⟨2, 1, "VIDEO", none, 2, 0, true, none⟩, by decide, by decide⟩

/-- C4: when a dispatch finishes without a fatal abort on a nonempty plan,
the orchestrator completes the conversation when every item was sent,
fails it when every item failed, and completes it on every mixed
outcome. -/
theorem orchestrator_terminal_status (env : Nat → SendOutcome)
    (messages : List PlanItem) (r : DispatchResult)
    (hok : sendSequentialMessages env messages = .ok r)
    (hne : 0 < messages.length) :
    (r.sent = messages.length →
      (handleDispatchOutcome env messages).status = ConvStatus.COMPLETED) ∧
    (r.failed = messages.length →
      (handleDispatchOutcome env messages).status = ConvStatus.FAILED) ∧
    (r.sent ≠ messages.length → r.failed ≠ messages.length →
      (handleDispatchOutcome env messages).status = ConvStatus.COMPLETED) := by
  have hcounts := (sendSeq_ok_counts env messages r hok).2.1
  simp only [handleDispatchOutcome, hok]
  refine ⟨fun hs => ?_, fun hf => ?_, fun hs hf => ?_⟩
  · rw [if_pos hs]
    rfl
  · have hsne : r.sent ≠ messages.length := by omega
    rw [if_neg hsne, if_pos hf]
    rfl
  · rw [if_neg hs, if_neg hf]
    rfl

/-- Witness for C4: two text items, the second failing with an ordinary
error, give the mixed outcome `{sent: 1, failed: 1}` and the conversation
is completed. -/
theorem orchestrator_terminal_status_witness :
    (handleDispatchOutcome envSecondFails planTwoTexts).status =
      ConvStatus.COMPLETED :=
  (orchestrator_terminal_status envSecondFails planTwoTexts ⟨true, 2, 1, 1⟩
    (by rfl) (by decide)).2.2 (by decide) (by decide)

/-- Counterexample for C1: on a transport-fatal send failure the dispatch
aborts and the error reaches the orchestrator, but the orchestrator's
handler only logs it — the conversation is NOT marked FAILED (here it is
still INITIATED). -/
theorem transport_fatal_counterexample :
    sendSequentialMessages envFatal planTwoTexts =
      .error ⟨"Session closed", 0, 1⟩ ∧
    (handleDispatchOutcome envFatal planTwoTexts).status ≠
      ConvStatus.FAILED :=
  ⟨by rfl, by decide⟩

/-- The conversation row during a dispatch is always INITIATED or
IN_PROGRESS: the row is created INITIATED and every
`incrementMessagesSent` sets IN_PROGRESS. -/
theorem convAfterSends_status (n : Nat) :
    (convAfterSends n).status = ConvStatus.INITIATED ∨
    (convAfterSends n).status = ConvStatus.IN_PROGRESS := by
  cases n with
  | zero => left; rfl
  | succ k => right; rfl

/-- C1 amended: a transport-fatal send failure makes the dispatcher abort
the remainder of the plan immediately and propagate the error to the
orchestrator; only critical connection errors propagate this way; the
orchestrator catches the error, merely logs it, and the conversation keeps
the status it had when the abort happened — in particular it is never
marked FAILED (nor COMPLETED) by this path. -/
theorem transport_fatal_abort :
    (∀ (env : Nat → SendOutcome) (m : PlanItem) (rest : List PlanItem)
      (e : String), supportedType m.type_code = true →
      env 0 = SendOutcome.fail e → isCriticalError e = true →
      sendSequentialMessages env (m :: rest) = .error ⟨e, 0, 1⟩ ∧
      sendTrace env (m :: rest) = [m.sort_order] ∧
      (handleDispatchOutcome env (m :: rest)).status =
        ConvStatus.INITIATED) ∧
    (∀ (env : Nat → SendOutcome) (messages : List PlanItem)
      (a : AbortInfo), sendSequentialMessages env messages = .error a →
      isCriticalError a.errorMessage = true ∧
      (handleDispatchOutcome env messages).status ≠ ConvStatus.FAILED ∧
      (handleDispatchOutcome env messages).status ≠
        ConvStatus.COMPLETED) := by
  constructor
  · intro env m rest e hsup henv hcrit
    have hda : dispatchAux env 0 0 0 (m :: rest) =
        ([m.sort_order], .error ⟨e, 0, 1⟩) := by
      simp only [dispatchAux, hsup, if_true, henv, if_pos hcrit]
    refine ⟨?_, ?_, ?_⟩
    · simp only [sendSequentialMessages, hda]
    · simp only [sendTrace, hda]
    · simp only [handleDispatchOutcome, sendSequentialMessages, hda]
      rfl
  · intro env messages a herr
    have hcritical : isCriticalError a.errorMessage = true := by
      unfold sendSequentialMessages at herr
      obtain ⟨p, hd⟩ : ∃ p, dispatchAux env 0 0 0 messages = p := ⟨_, rfl⟩
      obtain ⟨tr, r'⟩ := p
      rw [hd] at herr
      cases r' with
      | ok sf =>
        obtain ⟨s, f⟩ := sf
        cases herr
      | error a' =>
        cases herr
        exact dispatchAux_error_critical env messages 0 0 0 tr a hd
    have hstatus : handleDispatchOutcome env messages =
        convAfterSends a.sentSoFar := by
      simp only [handleDispatchOutcome, herr]
    refine ⟨hcritical, ?_, ?_⟩ <;> rw [hstatus] <;>
      rcases convAfterSends_status a.sentSoFar with h | h <;>
        rw [h] <;> decide

/-- Witness for the amended C1: a fatal failure on the very first item of
a two-item plan aborts at once (only one attempt in the trace), surfaces
the session error, and leaves the conversation INITIATED. -/
theorem transport_fatal_abort_witness :
    sendSequentialMessages envFatal planReversed =
      .error ⟨"Session closed", 0, 1⟩ ∧
    sendTrace envFatal planReversed = [2] ∧
    (handleDispatchOutcome envFatal planReversed).status =
      ConvStatus.INITIATED :=
  transport_fatal_abort.1 envFatal
    { id := 1, campaign_id := 1, type_code := "TEXT", sort_order := 2 }
    [{ id := 2, campaign_id := 1, type_code := "TEXT", sort_order := 1 }]
    "Session closed" (by decide) rfl (by decide)

/-- Counterexample for C3: handed the plan `[{sortOrder: 2}, {sortOrder: 1}]`
in that listed order, the dispatcher attempts sortOrder 2 first — it sends
in plan list order and never reorders by `sort_order` itself. -/
theorem dispatch_order_counterexample :
    sendTrace envAllOk planReversed = [2, 1] ∧
    ¬ List.Sorted (· ≤ ·) (sendTrace envAllOk planReversed) := by
  refine ⟨by rfl, ?_⟩
  rw [show sendTrace envAllOk planReversed = [2, 1] from rfl]
  simp [List.sorted_cons]

/-- C3 amended: the dispatcher preserves the list order of the plan it is
given (its attempt trace is a sublist of the plan's `sort_order` column),
and because `getCampaignMessages` returns the campaign's items sorted by
`sort_order` ascending, every dispatch of a fetched plan attempts items in
ascending (non-decreasing) `sort_order`. -/
theorem dispatch_order_amended :
    (∀ (env : Nat → SendOutcome) (msgs : List PlanItem),
      (sendTrace env msgs).Sublist (msgs.map (fun m => m.sort_order))) ∧
    (∀ (env : Nat → SendOutcome) (rows : List PlanItem) (cid : Nat),
      List.Sorted (· ≤ ·) (sendTrace env (getCampaignMessages rows cid))) := by
  constructor
  · intro env msgs
    exact dispatchAux_trace_sublist env msgs 0 0 0
  · intro env rows cid
    have hplan : List.Sorted
        (fun a b : PlanItem => a.sort_order ≤ b.sort_order)
        (getCampaignMessages rows cid) :=
      List.sorted_insertionSort _ _
    have hmap : List.Sorted (· ≤ ·)
        ((getCampaignMessages rows cid).map (fun m => m.sort_order)) :=
      List.Pairwise.map _ (fun _ _ h => h) hplan
    exact hmap.sublist (dispatchAux_trace_sublist env _ 0 0 0)

/-! ## Idempotence of normalizeText: character-level lemmas -/

/-- Evaluation of `Char.ofNat` below the surrogate range. -/
theorem char_toNat_ofNat (m : Nat) (h1 : m < 55296) :
    (Char.ofNat m).toNat = m := by
  unfold Char.ofNat
  rw [dif_pos (Or.inl h1)]
  simp [Char.ofNatAux, Char.toNat, Nat.toUInt32, UInt32.ofNat, Fin.ofNat,
    UInt32.toNat, BitVec.toNat_ofNatLt]

/-- Lowercasing is idempotent. -/
theorem toLowerChar_idem (c : Char) :
    toLowerChar (toLowerChar c) = toLowerChar c := by
  by_cases h : 65 ≤ c.toNat ∧ c.toNat ≤ 90
  · have hv : toLowerChar c = Char.ofNat (c.toNat + 32) := by
      unfold toLowerChar
      rw [if_pos h]
    have ht : (Char.ofNat (c.toNat + 32)).toNat = c.toNat + 32 :=
      char_toNat_ofNat _ (by omega)
    rw [hv]
    unfold toLowerChar
    rw [if_neg (by rw [ht]; omega), if_neg (by rw [ht]; omega),
      if_neg (by rw [ht]; omega), if_neg (by rw [ht]; omega),
      if_neg (by rw [ht]; omega), if_neg (by rw [ht]; omega),
      if_neg (by rw [ht]; omega), if_neg (by rw [ht]; omega)]
  · by_cases h1 : c.toNat = 0xC1
    · have hv : toLowerChar c = Char.ofNat 0xE1 := by
        unfold toLowerChar
        rw [if_neg h, if_pos h1]
      rw [hv]; decide
    · by_cases h2 : c.toNat = 0xC9
      · have hv : toLowerChar c = Char.ofNat 0xE9 := by
          unfold toLowerChar
          rw [if_neg h, if_neg h1, if_pos h2]
        rw [hv]; decide
      · by_cases h3 : c.toNat = 0xCD
        · have hv : toLowerChar c = Char.ofNat 0xED := by
            unfold toLowerChar
            rw [if_neg h, if_neg h1, if_neg h2, if_pos h3]
          rw [hv]; decide
        · by_cases h4 : c.toNat = 0xD3
          · have hv : toLowerChar c = Char.ofNat 0xF3 := by
              unfold toLowerChar
              rw [if_neg h, if_neg h1, if_neg h2, if_neg h3, if_pos h4]
            rw [hv]; decide
          · by_cases h5 : c.toNat = 0xDA
            · have hv : toLowerChar c = Char.ofNat 0xFA := by
                unfold toLowerChar
                rw [if_neg h, if_neg h1, if_neg h2, if_neg h3, if_neg h4,
                  if_pos h5]
              rw [hv]; decide
            · by_cases h6 : c.toNat = 0xDC
              · have hv : toLowerChar c = Char.ofNat 0xFC := by
                  unfold toLowerChar
                  rw [if_neg h, if_neg h1, if_neg h2, if_neg h3, if_neg h4,
                    if_neg h5, if_pos h6]
                rw [hv]; decide
              · by_cases h7 : c.toNat = 0xD1
                · have hv : toLowerChar c = Char.ofNat 0xF1 := by
                    unfold toLowerChar
                    rw [if_neg h, if_neg h1, if_neg h2, if_neg h3, if_neg h4,
                      if_neg h5, if_neg h6, if_pos h7]
                  rw [hv]; decide
                · have hv : toLowerChar c = c := by
                    unfold toLowerChar
                    rw [if_neg h, if_neg h1, if_neg h2, if_neg h3, if_neg h4,
                      if_neg h5, if_neg h6, if_neg h7]
                  rw [hv, hv]

/-- The characters produced by decomposing a lowercased character are
either combining marks or themselves fixed by lowercasing and
decomposition. -/
theorem decomp_toLower_clean (c d : Char)
    (hd : d ∈ decompChar (toLowerChar c))
    (hmark : isCombiningMark d = false) :
    toLowerChar d = d ∧ decompChar d = [d] := by
  by_cases h : 65 ≤ c.toNat ∧ c.toNat ≤ 90
  · have hv : toLowerChar c = Char.ofNat (c.toNat + 32) := by
      unfold toLowerChar
      rw [if_pos h]
    have ht : (Char.ofNat (c.toNat + 32)).toNat = c.toNat + 32 :=
      char_toNat_ofNat _ (by omega)
    have hdc : decompChar (toLowerChar c) = [toLowerChar c] := by
      rw [hv]
      unfold decompChar
      rw [if_neg (by rw [ht]; omega), if_neg (by rw [ht]; omega),
        if_neg (by rw [ht]; omega), if_neg (by rw [ht]; omega),
        if_neg (by rw [ht]; omega), if_neg (by rw [ht]; omega),
        if_neg (by rw [ht]; omega), if_neg (by rw [ht]; omega),
        if_neg (by rw [ht]; omega), if_neg (by rw [ht]; omega),
        if_neg (by rw [ht]; omega), if_neg (by rw [ht]; omega),
        if_neg (by rw [ht]; omega), if_neg (by rw [ht]; omega)]
    rw [hdc] at hd
    simp only [List.mem_singleton] at hd
    subst hd
    refine ⟨toLowerChar_idem c, ?_⟩
    rw [hdc]
  · have hlow : ∀ v : Char, toLowerChar c = v → v.toNat = 0xE1 ∨
        v.toNat = 0xE9 ∨ v.toNat = 0xED ∨ v.toNat = 0xF3 ∨
        v.toNat = 0xFA ∨ v.toNat = 0xFC ∨ v.toNat = 0xF1 ∨
        (v = c ∧ ¬ (65 ≤ c.toNat ∧ c.toNat ≤ 90) ∧ c.toNat ≠ 0xC1 ∧
          c.toNat ≠ 0xC9 ∧ c.toNat ≠ 0xCD ∧ c.toNat ≠ 0xD3 ∧
          c.toNat ≠ 0xDA ∧ c.toNat ≠ 0xDC ∧ c.toNat ≠ 0xD1) := by
      intro v hveq
      unfold toLowerChar at hveq
      rw [if_neg h] at hveq
      by_cases h1 : c.toNat = 0xC1
      · rw [if_pos h1] at hveq; left; rw [← hveq]; decide
      rw [if_neg h1] at hveq
      by_cases h2 : c.toNat = 0xC9
      · rw [if_pos h2] at hveq; right; left; rw [← hveq]; decide
      rw [if_neg h2] at hveq
      by_cases h3 : c.toNat = 0xCD
      · rw [if_pos h3] at hveq; right; right; left; rw [← hveq]; decide
      rw [if_neg h3] at hveq
      by_cases h4 : c.toNat = 0xD3
      · rw [if_pos h4] at hveq
        right; right; right; left; rw [← hveq]; decide
      rw [if_neg h4] at hveq
      by_cases h5 : c.toNat = 0xDA
      · rw [if_pos h5] at hveq
        right; right; right; right; left; rw [← hveq]; decide
      rw [if_neg h5] at hveq
      by_cases h6 : c.toNat = 0xDC
      · rw [if_pos h6] at hveq
        right; right; right; right; right; left; rw [← hveq]; decide
      rw [if_neg h6] at hveq
      by_cases h7 : c.toNat = 0xD1
      · rw [if_pos h7] at hveq
        right; right; right; right; right; right; left; rw [← hveq]; decide
      rw [if_neg h7] at hveq
      right; right; right; right; right; right; right
      exact ⟨hveq.symm, h, h1, h2, h3, h4, h5, h6, h7⟩
    rcases hlow (toLowerChar c) rfl with hc | hc | hc | hc | hc | hc | hc | hc
    · -- toLowerChar c has code E1, so it decomposes to a plus an acute
      have hdc : decompChar (toLowerChar c) = ['a', Char.ofNat 0x301] := by
        unfold decompChar
        rw [if_pos hc]
      rw [hdc] at hd
      rcases List.mem_cons.mp hd with rfl | hd2
      · exact ⟨by decide, by decide⟩
      · simp only [List.mem_singleton] at hd2
        subst hd2
        exact absurd hmark (by decide)
    · have hdc : decompChar (toLowerChar c) = ['e', Char.ofNat 0x301] := by
        unfold decompChar
        rw [if_neg (by omega), if_pos hc]
      rw [hdc] at hd
      rcases List.mem_cons.mp hd with rfl | hd2
      · exact ⟨by decide, by decide⟩
      · simp only [List.mem_singleton] at hd2
        subst hd2
        exact absurd hmark (by decide)
    · have hdc : decompChar (toLowerChar c) = ['i', Char.ofNat 0x301] := by
        unfold decompChar
        rw [if_neg (by omega), if_neg (by omega), if_pos hc]
      rw [hdc] at hd
      rcases List.mem_cons.mp hd with rfl | hd2
      · exact ⟨by decide, by decide⟩
      · simp only [List.mem_singleton] at hd2
        subst hd2
        exact absurd hmark (by decide)
    · have hdc : decompChar (toLowerChar c) = ['o', Char.ofNat 0x301] := by
        unfold decompChar
        rw [if_neg (by omega), if_neg (by omega), if_neg (by omega),
          if_pos hc]
      rw [hdc] at hd
      rcases List.mem_cons.mp hd with rfl | hd2
      · exact ⟨by decide, by decide⟩
      · simp only [List.mem_singleton] at hd2
        subst hd2
        exact absurd hmark (by decide)
    · have hdc : decompChar (toLowerChar c) = ['u', Char.ofNat 0x301] := by
        unfold decompChar
        rw [if_neg (by omega), if_neg (by omega), if_neg (by omega),
          if_neg (by omega), if_pos hc]
      rw [hdc] at hd
      rcases List.mem_cons.mp hd with rfl | hd2
      · exact ⟨by decide, by decide⟩
      · simp only [List.mem_singleton] at hd2
        subst hd2
        exact absurd hmark (by decide)
    · have hdc : decompChar (toLowerChar c) = ['u', Char.ofNat 0x308] := by
        unfold decompChar
        rw [if_neg (by omega), if_neg (by omega), if_neg (by omega),
          if_neg (by omega), if_neg (by omega), if_pos hc]
      rw [hdc] at hd
      rcases List.mem_cons.mp hd with rfl | hd2
      · exact ⟨by decide, by decide⟩
      · simp only [List.mem_singleton] at hd2
        subst hd2
        exact absurd hmark (by decide)
    · have hdc : decompChar (toLowerChar c) = ['n', Char.ofNat 0x303] := by
        unfold decompChar
        rw [if_neg (by omega), if_neg (by omega), if_neg (by omega),
          if_neg (by omega), if_neg (by omega), if_neg (by omega),
          if_pos hc]
      rw [hdc] at hd
      rcases List.mem_cons.mp hd with rfl | hd2
      · exact ⟨by decide, by decide⟩
      · simp only [List.mem_singleton] at hd2
        subst hd2
        exact absurd hmark (by decide)
    · -- c is untouched by lowercasing and not an accented letter handled
      -- by the decomposition table (its uppercase keys are excluded by
      -- the case split, its lowercase keys may still fire)
      obtain ⟨hvc, -, hu1, hu2, hu3, hu4, hu5, hu6, hu7⟩ := hc
      rw [hvc] at hd
      by_cases g1 : c.toNat = 0xE1
      · have hdc : decompChar c = ['a', Char.ofNat 0x301] := by
          unfold decompChar
          rw [if_pos g1]
        rw [hdc] at hd
        rcases List.mem_cons.mp hd with rfl | hd2
        · exact ⟨by decide, by decide⟩
        · simp only [List.mem_singleton] at hd2
          subst hd2
          exact absurd hmark (by decide)
      · by_cases g2 : c.toNat = 0xE9
        · have hdc : decompChar c = ['e', Char.ofNat 0x301] := by
            unfold decompChar
            rw [if_neg g1, if_pos g2]
          rw [hdc] at hd
          rcases List.mem_cons.mp hd with rfl | hd2
          · exact ⟨by decide, by decide⟩
          · simp only [List.mem_singleton] at hd2
            subst hd2
            exact absurd hmark (by decide)
        · by_cases g3 : c.toNat = 0xED
          · have hdc : decompChar c = ['i', Char.ofNat 0x301] := by
              unfold decompChar
              rw [if_neg g1, if_neg g2, if_pos g3]
            rw [hdc] at hd
            rcases List.mem_cons.mp hd with rfl | hd2
            · exact ⟨by decide, by decide⟩
            · simp only [List.mem_singleton] at hd2
              subst hd2
              exact absurd hmark (by decide)
          · by_cases g4 : c.toNat = 0xF3
            · have hdc : decompChar c = ['o', Char.ofNat 0x301] := by
                unfold decompChar
                rw [if_neg g1, if_neg g2, if_neg g3, if_pos g4]
              rw [hdc] at hd
              rcases List.mem_cons.mp hd with rfl | hd2
              · exact ⟨by decide, by decide⟩
              · simp only [List.mem_singleton] at hd2
                subst hd2
                exact absurd hmark (by decide)
            · by_cases g5 : c.toNat = 0xFA
              · have hdc : decompChar c = ['u', Char.ofNat 0x301] := by
                  unfold decompChar
                  rw [if_neg g1, if_neg g2, if_neg g3, if_neg g4, if_pos g5]
                rw [hdc] at hd
                rcases List.mem_cons.mp hd with rfl | hd2
                · exact ⟨by decide, by decide⟩
                · simp only [List.mem_singleton] at hd2
                  subst hd2
                  exact absurd hmark (by decide)
              · by_cases g6 : c.toNat = 0xFC
                · have hdc : decompChar c = ['u', Char.ofNat 0x308] := by
                    unfold decompChar
                    rw [if_neg g1, if_neg g2, if_neg g3, if_neg g4,
                      if_neg g5, if_pos g6]
                  rw [hdc] at hd
                  rcases List.mem_cons.mp hd with rfl | hd2
                  · exact ⟨by decide, by decide⟩
                  · simp only [List.mem_singleton] at hd2
                    subst hd2
                    exact absurd hmark (by decide)
                · by_cases g7 : c.toNat = 0xF1
                  · have hdc : decompChar c = ['n', Char.ofNat 0x303] := by
                      unfold decompChar
                      rw [if_neg g1, if_neg g2, if_neg g3, if_neg g4,
                        if_neg g5, if_neg g6, if_pos g7]
                    rw [hdc] at hd
                    rcases List.mem_cons.mp hd with rfl | hd2
                    · exact ⟨by decide, by decide⟩
                    · simp only [List.mem_singleton] at hd2
                      subst hd2
                      exact absurd hmark (by decide)
                  · have hdc : decompChar c = [c] := by
                      unfold decompChar
                      rw [if_neg g1, if_neg g2, if_neg g3, if_neg g4,
                        if_neg g5, if_neg g6, if_neg g7, if_neg hu1,
                        if_neg hu2, if_neg hu3, if_neg hu4, if_neg hu5,
                        if_neg hu6, if_neg hu7]
                    rw [hdc] at hd
                    simp only [List.mem_singleton] at hd
                    subst hd
                    constructor
                    · conv_lhs => rw [← hvc]
                      rw [toLowerChar_idem, hvc]
                    · exact hdc

/-- A map whose function fixes every element of the list is the
identity. -/
theorem map_fixpoints {α : Type} {f : α → α} :
    ∀ l : List α, (∀ c ∈ l, f c = c) → l.map f = l := by
  intro l h
  induction l with
  | nil => rfl
  | cons c rest ih =>
    rw [List.map_cons, h c (List.mem_cons_self c rest),
      ih (fun x hx => h x (List.mem_cons_of_mem c hx))]

/-- A flatMap whose function sends every element of the list to its
singleton is the identity. -/
theorem flatMap_fixpoints {α : Type} {f : α → List α} :
    ∀ l : List α, (∀ c ∈ l, f c = [c]) → l.flatMap f = l := by
  intro l h
  induction l with
  | nil => rfl
  | cons c rest ih =>
    rw [List.flatMap_cons, h c (List.mem_cons_self c rest),
      ih (fun x hx => h x (List.mem_cons_of_mem c hx)), List.singleton_append]

/-- Every character in the output of `stripAndClean` is clean. -/
theorem stripAndClean_chars (l : List Char) (d : Char)
    (hd : d ∈ stripAndClean l) : cleanChar d := by
  unfold stripAndClean at hd
  obtain ⟨e, he, hde⟩ := List.mem_map.mp hd
  obtain ⟨he2, hemark⟩ := List.mem_filter.mp he
  obtain ⟨c, hcmem, hce⟩ := List.mem_flatMap.mp he2
  obtain ⟨c0, -, hcc⟩ := List.mem_map.mp hcmem
  rw [← hcc] at hce
  have hemark2 : isCombiningMark e = false := by
    simpa using hemark
  by_cases hp : isPunctChar e = true
  · rw [if_pos hp] at hde
    subst hde
    exact ⟨by decide, by decide, by decide, by decide⟩
  · rw [if_neg hp] at hde
    subst hde
    obtain ⟨hl, hdc⟩ := decomp_toLower_clean c0 e hce hemark2
    exact ⟨hl, hdc, hemark2, by simpa using hp⟩

/-- `stripAndClean` is the identity on lists of clean characters. -/
theorem stripAndClean_id (l : List Char) (h : ∀ c ∈ l, cleanChar c) :
    stripAndClean l = l := by
  unfold stripAndClean
  rw [map_fixpoints l (fun c hc => (h c hc).1)]
  rw [flatMap_fixpoints l (fun c hc => (h c hc).2.1)]
  rw [List.filter_eq_self.mpr (fun c hc => by
    rw [(h c hc).2.2.1]; rfl)]
  exact map_fixpoints l (fun c hc => by rw [(h c hc).2.2.2]; rfl)

/-! ## Idempotence of normalizeText: whitespace-shape lemmas -/

/-- The collapse pass, entered in in-a-run state, never emits a leading
space. -/
theorem headOk_collapseAux_true (l : List Char) :
    headOk (collapseAux true l) = true := by
  induction l with
  | nil => rfl
  | cons c rest ih =>
    by_cases hs : isJsSpace c = true
    · simpa [collapseAux, hs] using ih
    · simp [collapseAux, hs, headOk]

/-- The collapse pass establishes the tidy whitespace shape. -/
theorem tidy_collapseAux (l : List Char) :
    ∀ b, tidy (collapseAux b l) = true := by
  induction l with
  | nil => intro b; rfl
  | cons c rest ih =>
    intro b
    by_cases hs : isJsSpace c = true
    · cases b
      · simp [collapseAux, hs, tidy, headOk_collapseAux_true, ih true]
      · simpa [collapseAux, hs] using ih true
    · simp [collapseAux, hs, tidy, ih false]

/-- The collapse pass is the identity on tidy lists (entered in in-a-run
state, additionally the list must not begin with a space). -/
theorem collapseAux_eq_self (l : List Char) :
    ∀ b, tidy l = true → (b = true → headOk l = true) →
    collapseAux b l = l := by
  induction l with
  | nil => intro b _ _; rfl
  | cons c rest ih =>
    intro b htidy hhead
    rw [tidy, Bool.and_eq_true] at htidy
    obtain ⟨hcond, hrest⟩ := htidy
    by_cases hs : isJsSpace c = true
    · have hc : c = ' ' ∧ headOk rest = true := by
        rw [hs] at hcond
        simp only [Bool.not_true, Bool.false_or, Bool.and_eq_true,
          beq_iff_eq] at hcond
        exact hcond
      cases b
      · simp only [collapseAux, hs, if_true, Bool.false_eq_true, if_false]
        rw [ih true hrest (fun _ => hc.2), hc.1]
      · exfalso
        have := hhead rfl
        rw [headOk, hs] at this
        cases this
    · simp only [collapseAux, hs, Bool.false_eq_true, if_false]
      rw [ih false hrest (fun hfalse => nomatch hfalse)]

/-- Dropping leading whitespace leaves no leading whitespace. -/
theorem headOk_dropWhile (l : List Char) :
    headOk (l.dropWhile isJsSpace) = true := by
  induction l with
  | nil => rfl
  | cons c rest ih =>
    rw [List.dropWhile_cons]
    by_cases hs : isJsSpace c = true
    · rw [if_pos hs]; exact ih
    · rw [if_neg hs, headOk]
      simpa using hs

/-- The tidy shape passes to the tail. -/
theorem tidy_tail (c : Char) (l : List Char) (h : tidy (c :: l) = true) :
    tidy l = true := by
  rw [tidy, Bool.and_eq_true] at h
  exact h.2

/-- The tidy shape survives dropping leading whitespace. -/
theorem tidy_dropWhile (l : List Char) (h : tidy l = true) :
    tidy (l.dropWhile isJsSpace) = true := by
  induction l with
  | nil => exact h
  | cons c rest ih =>
    rw [List.dropWhile_cons]
    by_cases hs : isJsSpace c = true
    · rw [if_pos hs]
      exact ih (tidy_tail _ _ h)
    · rw [if_neg hs]
      exact h

/-- Unfolding equation for `dropTrailingSpaces` when the tail reduces to
the empty list. -/
theorem dts_cons_nil (c : Char) (rest : List Char)
    (h : dropTrailingSpaces rest = []) :
    dropTrailingSpaces (c :: rest) =
      if isJsSpace c then [] else [c] := by
  unfold dropTrailingSpaces
  rw [h]

/-- Unfolding equation for `dropTrailingSpaces` when the tail reduces to a
nonempty list. -/
theorem dts_cons_cons (c d : Char) (r rest : List Char)
    (h : dropTrailingSpaces rest = d :: r) :
    dropTrailingSpaces (c :: rest) = c :: d :: r := by
  unfold dropTrailingSpaces
  rw [h]

/-- Dropping trailing whitespace yields the empty list or keeps the
head. -/
theorem dts_head (l : List Char) :
    dropTrailingSpaces l = [] ∨
    (dropTrailingSpaces l).head? = l.head? := by
  cases l with
  | nil => left; rfl
  | cons c rest =>
    cases hdts : dropTrailingSpaces rest with
    | nil =>
      rw [dts_cons_nil c rest hdts]
      by_cases hs : isJsSpace c = true
      · left; rw [if_pos hs]
      · right; rw [if_neg hs]; rfl
    | cons d r =>
      right
      rw [dts_cons_cons c d r rest hdts]
      rfl

/-- Dropping trailing whitespace never creates a leading space. -/
theorem headOk_dts (l : List Char) (h : headOk l = true) :
    headOk (dropTrailingSpaces l) = true := by
  rcases dts_head l with h1 | h1
  · rw [h1]; rfl
  · cases hl : dropTrailingSpaces l with
    | nil => rfl
    | cons d r =>
      rw [hl] at h1
      cases l with
      | nil => cases h1
      | cons c rest =>
        have hdc : d = c := by simpa using h1
        rw [headOk, hdc]
        rw [headOk] at h
        exact h

/-- The tidy shape survives dropping trailing whitespace. -/
theorem tidy_dts (l : List Char) (h : tidy l = true) :
    tidy (dropTrailingSpaces l) = true := by
  induction l with
  | nil => exact h
  | cons c rest ih =>
    have hrest := tidy_tail _ _ h
    rw [tidy, Bool.and_eq_true] at h
    obtain ⟨hcond, -⟩ := h
    cases hdts : dropTrailingSpaces rest with
    | nil =>
      rw [dts_cons_nil c rest hdts]
      by_cases hs : isJsSpace c = true
      · rw [if_pos hs]; rfl
      · rw [if_neg hs, tidy, headOk]
        simp [hs, tidy]
    | cons d r =>
      have htl : tidy (d :: r) = true := by
        have := ih hrest
        rw [hdts] at this
        exact this
      rw [dts_cons_cons c d r rest hdts, tidy, Bool.and_eq_true]
      refine ⟨?_, htl⟩
      by_cases hs : isJsSpace c = true
      · have hc : c = ' ' ∧ headOk rest = true := by
          rw [hs] at hcond
          simp only [Bool.not_true, Bool.false_or, Bool.and_eq_true,
            beq_iff_eq] at hcond
          exact hcond
        rcases dts_head rest with hh | hh
        · rw [hdts] at hh; cases hh
        · rw [hdts] at hh
          cases rest with
          | nil => cases hh
          | cons e rest' =>
            have hde : d = e := by simpa using hh
            subst hde
            have hok : headOk (d :: rest') = true := hc.2
            rw [headOk] at hok
            rw [hs, hc.1, headOk]
            simp [hok]
      · simp [hs]

/-- Dropping trailing whitespace is idempotent. -/
theorem dts_idem (l : List Char) :
    dropTrailingSpaces (dropTrailingSpaces l) = dropTrailingSpaces l := by
  induction l with
  | nil => rfl
  | cons c rest ih =>
    cases hdts : dropTrailingSpaces rest with
    | nil =>
      rw [dts_cons_nil c rest hdts]
      by_cases hs : isJsSpace c = true
      · rw [if_pos hs]; rfl
      · rw [if_neg hs, dts_cons_nil c [] rfl, if_neg hs]
    | cons d r =>
      have h2 : dropTrailingSpaces (d :: r) = d :: r := by
        have := ih
        rw [hdts] at this
        exact this
      rw [dts_cons_cons c d r rest hdts, dts_cons_cons c d r (d :: r) h2]

/-- Dropping leading whitespace does nothing when there is none. -/
theorem dropWhile_headOk_id (l : List Char) (h : headOk l = true) :
    l.dropWhile isJsSpace = l := by
  cases l with
  | nil => rfl
  | cons c rest =>
    rw [List.dropWhile_cons, if_neg]
    rw [headOk] at h
    simp only [Bool.not_eq_true'] at h
    simp [h]

/-- Trimming is idempotent. -/
theorem trimChars_idem (l : List Char) :
    trimChars (trimChars l) = trimChars l := by
  unfold trimChars
  rw [dropWhile_headOk_id _ (headOk_dts _ (headOk_dropWhile l)), dts_idem]

/-- The tidy shape survives trimming. -/
theorem tidy_trimChars (l : List Char) (h : tidy l = true) :
    tidy (trimChars l) = true :=
  tidy_dts _ (tidy_dropWhile l h)

/-- Characters of the collapsed list are spaces or come from the input. -/
theorem mem_collapseAux (l : List Char) :
    ∀ b d, d ∈ collapseAux b l → d = ' ' ∨ d ∈ l := by
  induction l with
  | nil => intro b d h; cases h
  | cons c rest ih =>
    intro b d h
    by_cases hs : isJsSpace c = true
    · cases b
      · simp only [collapseAux, hs, if_true, Bool.false_eq_true,
          if_false] at h
        rcases List.mem_cons.mp h with rfl | h2
        · left; rfl
        · rcases ih true d h2 with h3 | h3
          · left; exact h3
          · right; exact List.mem_cons_of_mem c h3
      · simp only [collapseAux, hs, if_true] at h
        rcases ih true d h with h3 | h3
        · left; exact h3
        · right; exact List.mem_cons_of_mem c h3
    · simp only [collapseAux, hs, Bool.false_eq_true, if_false] at h
      rcases List.mem_cons.mp h with rfl | h2
      · right; exact List.mem_cons_self _ _
      · rcases ih false d h2 with h3 | h3
        · left; exact h3
        · right; exact List.mem_cons_of_mem c h3

/-- Characters survive dropping trailing whitespace. -/
theorem mem_dts (l : List Char) : ∀ d, d ∈ dropTrailingSpaces l → d ∈ l := by
  induction l with
  | nil => intro d h; cases h
  | cons c rest ih =>
    intro d h
    cases hdts : dropTrailingSpaces rest with
    | nil =>
      rw [dts_cons_nil c rest hdts] at h
      by_cases hs : isJsSpace c = true
      · rw [if_pos hs] at h; cases h
      · rw [if_neg hs] at h
        rcases List.mem_cons.mp h with rfl | h2
        · exact List.mem_cons_self _ _
        · cases h2
    | cons e r =>
      rw [dts_cons_cons c e r rest hdts] at h
      rcases List.mem_cons.mp h with rfl | h2
      · exact List.mem_cons_self _ _
      · exact List.mem_cons_of_mem c (ih d (by rw [hdts]; exact h2))

/-- C7: text normalization is idempotent. -/
theorem normalizeText_idem (x : String) :
    normalizeText (normalizeText x) = normalizeText x := by
  by_cases hx : x = ""
  · rw [hx]
    rfl
  · have hnx : normalizeText x =
        ⟨trimChars (collapseAux false (stripAndClean x.data))⟩ := by
      unfold normalizeText
      rw [if_neg hx]
    rw [hnx]
    unfold normalizeText
    by_cases he : (⟨trimChars (collapseAux false (stripAndClean x.data))⟩ :
        String) = ""
    · rw [if_pos he]
      exact he.symm
    · rw [if_neg he]
      have hclean : ∀ d ∈ trimChars
          (collapseAux false (stripAndClean x.data)), cleanChar d := by
        intro d hd
        unfold trimChars at hd
        have hd2 := (List.dropWhile_sublist isJsSpace).mem (mem_dts _ d hd)
        rcases mem_collapseAux _ false d hd2 with rfl | hd3
        · exact ⟨by decide, by decide, by decide, by decide⟩
        · exact stripAndClean_chars _ d hd3
      have htidy : tidy (trimChars
          (collapseAux false (stripAndClean x.data))) = true :=
        tidy_trimChars _ (tidy_collapseAux _ false)
      congr 1
      rw [show (⟨trimChars (collapseAux false (stripAndClean x.data))⟩ :
        String).data = trimChars (collapseAux false (stripAndClean x.data))
        from rfl]
      rw [stripAndClean_id _ hclean]
      rw [collapseAux_eq_self _ false htidy (fun hfalse => nomatch hfalse)]
      exact trimChars_idem _

end Bot
